import Mathlib

/-
Verification of the polyomino placement engine (polyomino_v4.py, draw_v4.py,
polyomino_v3.py): shape geometry primitives, grid occupancy, color and piece
selection policies, and the bounded randomized placement loop.

Python dicts are embedded as association lists with first-match lookup and
update-or-append insertion; the pseudo-random stream is an explicit oracle of
functions supplying every random draw, so theorems quantify over all possible
random outcomes.
-/

namespace PolyDraw

/-- A grid cell coordinate, as in the source tuples `(x, y)`. -/
abbrev Cell : Type := Int × Int

/-- An RGB color triple. -/
abbrev Color : Type := Nat × Nat × Nat

/-- `min(...)` over a Python list of ints (only ever applied to nonempty lists
in the source; the `[]` case is an arbitrary default). -/
def listMin : List Int → Int
  | [] => 0
  | [x] => x
  | x :: y :: rest => min x (listMin (y :: rest))

/-- `max(...)` over a Python list of ints (nonempty in the source). -/
def listMax : List Int → Int
  | [] => 0
  | [x] => x
  | x :: y :: rest => max x (listMax (y :: rest))

/-- `normalize(cells)` from the source: translate so that min x = 0 and
min y = 0; the empty list is returned unchanged. -/
def normalize (cells : List Cell) : List Cell :=
  match cells with
  | [] => []
  | c :: cs =>
    (c :: cs).map fun q =>
      (q.1 - listMin ((c :: cs).map Prod.fst), q.2 - listMin ((c :: cs).map Prod.snd))

/-- The pointwise map `(x, y) -> (y, -x)` used by `rotate90`. -/
def rotCell (q : Cell) : Cell := (q.2, -q.1)

/-- The pointwise map `(x, y) -> (-x, y)` used by `flip_horizontal`. -/
def flipCell (q : Cell) : Cell := (-q.1, q.2)

/-- `rotate90(cells)` from the source. -/
def rotate90 (cells : List Cell) : List Cell :=
  normalize (cells.map rotCell)

/-- `flip_horizontal(cells)` from the source. -/
def flip_horizontal (cells : List Cell) : List Cell :=
  normalize (cells.map flipCell)

/-- Proof helper: translate every cell by `t` (not itself a source function). -/
def translate (t : Cell) (l : List Cell) : List Cell :=
  l.map fun q => (q.1 + t.1, q.2 + t.2)

/-- The color palette of polyomino_v4.py. -/
def PALETTE : List Color :=
  [(0, 0, 128), (0, 0, 255), (0, 64, 64), (0, 64, 192), (0, 128, 0),
   (0, 128, 128), (0, 128, 192), (0, 128, 255), (0, 192, 0), (0, 192, 192),
   (0, 192, 255), (0, 255, 0), (0, 255, 128), (0, 255, 255), (128, 0, 0),
   (128, 0, 128), (128, 0, 192), (128, 0, 255), (128, 64, 192), (128, 192, 64),
   (128, 192, 192), (128, 128, 0), (128, 128, 255), (128, 255, 0), (128, 255, 192),
   (128, 255, 255), (255, 0, 0), (255, 0, 128), (255, 0, 255), (255, 64, 64),
   (255, 64, 192), (255, 128, 0), (255, 128, 128), (255, 128, 255), (255, 255, 0)]

/-- A polyomino instance: cells, name, color.  The source constructor has
defaults (`name or "poly"`, `color or random.choice(PALETTE)`); every call
site modeled here passes both explicitly, via `Polyomino.make`. -/
structure Polyomino where
  cells : List Cell
  name : String
  color : Color
deriving DecidableEq, Repr

/-- `Polyomino.__init__`: the constructor normalizes the cells it is given. -/
def Polyomino.make (cells : List Cell) (color : Color) (name : String) : Polyomino :=
  { cells := normalize cells, name := name, color := color }

/-- `Polyomino.rotated` as in draw_v4.py / polyomino_v3.py, which append a
cosmetic `"_rot"` suffix to the name (polyomino_v4.py keeps the name; the
suffix is discarded again by `random_orientation`, so the engine below is
unaffected by the choice). -/
def Polyomino.rotated (p : Polyomino) : Polyomino :=
  Polyomino.make (rotate90 p.cells) p.color (p.name ++ "_rot")

/-- `Polyomino.flipped` (with the `"_flip"` suffix of draw_v4.py / v3). -/
def Polyomino.flipped (p : Polyomino) : Polyomino :=
  Polyomino.make (flip_horizontal p.cells) p.color (p.name ++ "_flip")

/-- `Polyomino.bounding`: `(maxx + 1, maxy + 1)`, or `(0, 0)` when empty. -/
def Polyomino.bounding (p : Polyomino) : Int × Int :=
  match p.cells with
  | [] => (0, 0)
  | c :: cs =>
    (listMax (((c :: cs)).map Prod.fst) + 1, listMax (((c :: cs)).map Prod.snd) + 1)

/-- Apply `.rotated` a number of times (the `for _ in range(rotates)` loop). -/
def rotIter : Nat → Polyomino → Polyomino
  | 0, p => p
  | n + 1, p => rotIter n p.rotated

/-- `random_orientation(poly)`, with the two random draws
(`random.randint(0, 3)` rotation count and the coin flip) passed explicitly.
The returned piece is rebuilt with the ORIGINAL name and color. -/
def random_orientation (rotates : Nat) (doFlip : Bool) (poly : Polyomino) : Polyomino :=
  let p := rotIter rotates poly
  let p2 := if doFlip then p.flipped else p
  Polyomino.make p2.cells poly.color poly.name

/-- The eight normalized rotations/reflections of a cell list. -/
def orientations (cells : List Cell) : List (List Cell) :=
  [normalize cells, rotate90 (normalize cells), rotate90 (rotate90 (normalize cells)),
   rotate90 (rotate90 (rotate90 (normalize cells))),
   flip_horizontal (normalize cells), flip_horizontal (rotate90 (normalize cells)),
   flip_horizontal (rotate90 (rotate90 (normalize cells))),
   flip_horizontal (rotate90 (rotate90 (rotate90 (normalize cells))))]

/-- First-match lookup in an association list (Python `d.get(k)` / `k in d`). -/
def dictLookup {κ ν : Type} [DecidableEq κ] (k : κ) : List (κ × ν) → Option ν
  | [] => none
  | kv :: rest => if kv.1 = k then some kv.2 else dictLookup k rest

/-- Python dict assignment `d[k] = v`: overwrite the first matching key, or
append the new binding at the end. -/
def dictInsert {κ ν : Type} [DecidableEq κ] (k : κ) (v : ν) : List (κ × ν) → List (κ × ν)
  | [] => [(k, v)]
  | kv :: rest => if kv.1 = k then (k, v) :: rest else kv :: dictInsert k v rest

/-- The board: column/row counts, rendering data, and the occupancy map
`grid : (x, y) -> color` (an empty dict at construction). -/
structure Board where
  cols : Int
  rows : Int
  cellSize : Int
  origin : Int × Int
  grid : List (Cell × Color)
deriving DecidableEq, Repr

/-- The in-bounds test `0 <= tx < cols and 0 <= ty < rows`. -/
abbrev in_bounds (b : Board) (x y : Int) : Prop :=
  0 ≤ x ∧ x < b.cols ∧ 0 ≤ y ∧ y < b.rows

/-- `Board.can_place`: true iff every translated cell is in bounds and not in
the occupancy map.  A pure query: it takes the board and returns only a Bool
(the source only reads `self.grid`). -/
def Board.can_place (b : Board) (p : Polyomino) (gx gy : Int) : Bool :=
  p.cells.all fun c =>
    decide (in_bounds b (gx + c.1) (gy + c.2)) &&
      !(dictLookup (gx + c.1, gy + c.2) b.grid).isSome

/-- `Board.place_poly`: write each translated cell that is in bounds with the
shape's color (no overlap or all-cells check of its own). -/
def Board.place_poly (b : Board) (p : Polyomino) (gx gy : Int) : Board :=
  { b with
    grid := p.cells.foldl
      (fun g c =>
        if in_bounds b (gx + c.1) (gy + c.2) then
          dictInsert (gx + c.1, gy + c.2) p.color g
        else g)
      b.grid }

/-- `Board.clear`: empty the occupancy map. -/
def Board.clear (b : Board) : Board :=
  { b with grid := [] }

/-- A mutation of the board: an (unchecked) `place_poly` call or `clear`. -/
inductive BoardOp where
  | place (p : Polyomino) (gx gy : Int)
  | clear
deriving DecidableEq, Repr

def apply_op (b : Board) : BoardOp → Board
  | BoardOp.place p gx gy => b.place_poly p gx gy
  | BoardOp.clear => b.clear

def apply_ops (b : Board) : List BoardOp → Board
  | [] => b
  | op :: rest => apply_ops (apply_op b op) rest

/-- The placement-time state of draw_v4.py around `try_place_and_record`. -/
structure DrawState where
  board : Board
  placed_count : Nat
  occupied_squares : Nat
  placed_polys : List (Polyomino × Int × Int)
deriving Repr

/-- `try_place_and_record(poly_obj, gx, gy)` from draw_v4.py: compute absolute
positions, reject on any out-of-bounds or occupied cell, otherwise
1) place, 2) increment the piece count, 3) increment the squares count,
then record the placement. -/
def try_place_and_record (st : DrawState) (p : Polyomino) (gx gy : Int) :
    Bool × DrawState :=
  let abs_positions := p.cells.map fun c => (gx + c.1, gy + c.2)
  if ¬ (abs_positions.all fun pos => decide (in_bounds st.board pos.1 pos.2)) then
    (false, st)
  else if abs_positions.any fun pos => (dictLookup pos st.board.grid).isSome then
    (false, st)
  else
    (true,
     { board := { st.board with
                  grid := abs_positions.foldl (fun g pos => dictInsert pos p.color g) st.board.grid }
       placed_count := st.placed_count + 1
       occupied_squares := st.occupied_squares + abs_positions.length
       placed_polys := st.placed_polys ++ [(Polyomino.make p.cells p.color p.name, gx, gy)] })

/-- `PieceCycle` from draw_v4.py: a shuffled bag over `pieces`, popped from
the back, refilled with a fresh shuffled copy when empty.  The random
shuffles are supplied by the `shuffles` stream, indexed by the running
`refills` count (both model the global RNG; `pieces` and `pool` are the
source fields). -/
structure PieceCycle (α : Type) where
  pieces : List α
  pool : List α
  shuffles : Nat → List α
  refills : Nat

/-- `PieceCycle._refill`: `pool = shuffle(pieces[:])`. -/
def PieceCycle.refill {α : Type} (s : PieceCycle α) : PieceCycle α :=
  { s with pool := s.shuffles s.refills, refills := s.refills + 1 }

/-- `PieceCycle.__init__` calls `_refill` immediately. -/
def PieceCycle.init {α : Type} (pieces : List α) (shuffles : Nat → List α) : PieceCycle α :=
  PieceCycle.refill { pieces := pieces, pool := [], shuffles := shuffles, refills := 0 }

/-- `PieceCycle.next`: refill when the bag is empty, then pop the last
element.  `none` corresponds to Python `list.pop()` raising on an empty
list (only reachable when `pieces` itself is empty). -/
def PieceCycle.next {α : Type} (s : PieceCycle α) : Option α × PieceCycle α :=
  let s2 := if s.pool.isEmpty then s.refill else s
  (s2.pool.getLast?, { s2 with pool := s2.pool.dropLast })

/-- Iterate `next` a number of times, collecting the drawn pieces. -/
def PieceCycle.nextN {α : Type} : Nat → PieceCycle α → List (Option α) × PieceCycle α
  | 0, s => ([], s)
  | n + 1, s =>
    let r := s.next
    let rest := PieceCycle.nextN n r.2
    (r.1 :: rest.1, rest.2)

/-- The three color policies of polyomino_v4.py (`colors` menu entry). -/
inductive ColorChoice where
  | unique
  | random
  | same
deriving DecidableEq, Repr

/-- The pseudo-random stream driving one engine run, made explicit: one field
per kind of draw, indexed by the outer attempt counter (and the inner trial
index for anchors).  `initPool` is the shuffled palette copy made before the
loop for the unique policy, `refillPool` the shuffled copy made when the pool
runs dry, `randColor` is `random.choice(PALETTE)`, `sharedColor` the color
drawn once for the `same` policy.  Theorems quantify over all oracles, hence
over every possible outcome of the random draws. -/
structure Oracle where
  pickIdx : Nat → Nat
  rotCount : Nat → Nat
  doFlip : Nat → Bool
  anchorX : Nat → Nat → Int
  anchorY : Nat → Nat → Int
  initPool : List Color
  refillPool : Nat → List Color
  randColor : Nat → Color
  sharedColor : Color

/-- The mutable state of `run_placement` in polyomino_v4.py.  `inner_trials`
is instrumentation only: it counts anchor trials (iterations of the
`for _ in range(200)` loop) and is written nowhere in the source. -/
structure RunState where
  board : Board
  placed_polys : List (Polyomino × Int × Int)
  placed_count : Nat
  occupied_squares : Nat
  total_attempts : Nat
  unique_color_map : List (String × Color)
  color_pool : List Color
  inner_trials : Nat

/-- `max_total_attempts = 8000` in polyomino_v4.py (`MAX_TOTAL_ATTEMPTS` in
draw_v4.py). -/
def max_total_attempts : Nat := 8000

/-- The inner position-search budget: `for _ in range(200)`. -/
def inner_attempts : Nat := 200

/-- The color chosen for one attempt, together with the updated
`unique_color_map` and `color_pool` (lines 365-376 of polyomino_v4.py).
The `getD` default stands for `list.pop()` raising on an empty pool, which is
unreachable when the oracle's pools model shuffled copies of the (nonempty)
palette. -/
def pick_color_step (cc : ColorChoice) (o : Oracle) (t : Nat) (name : String)
    (st : RunState) : Color × List (String × Color) × List Color :=
  match cc with
  | ColorChoice.unique =>
    match dictLookup name st.unique_color_map with
    | some c => (c, st.unique_color_map, st.color_pool)
    | none =>
      let pool := if st.color_pool.isEmpty then o.refillPool t else st.color_pool
      let c := (pool.getLast?).getD (0, 0, 0)
      (c, dictInsert name c st.unique_color_map, pool.dropLast)
  | ColorChoice.random => (o.randColor t, st.unique_color_map, st.color_pool)
  | ColorChoice.same => (o.sharedColor, st.unique_color_map, st.color_pool)

/-- The inner anchor search: scan the trial anchors in order, returning the
first that passes `can_place` together with the number of trials consumed. -/
def find_anchor (b : Board) (p : Polyomino) : List (Int × Int) → Option (Int × Int) × Nat
  | [] => (none, 0)
  | a :: rest =>
    if b.can_place p a.1 a.2 then (some a, 1)
    else
      let r := find_anchor b p rest
      (r.1, r.2 + 1)

/-- Bounding-box check plus the inner placement loop for one oriented piece
(lines 379-392 of polyomino_v4.py): skip if the piece cannot fit, otherwise
try the given anchors and on the first `can_place` success do
`place_poly`, `placed_count += 1`, `occupied_squares += len(p.cells)`,
`placed_polys.append`. -/
def try_piece (st : RunState) (p : Polyomino) (anchors : List (Int × Int)) : RunState :=
  if st.board.cols - p.bounding.1 < 0 ∨ st.board.rows - p.bounding.2 < 0 then st
  else
    match find_anchor st.board p anchors with
    | (some a, n) =>
      { st with
        board := st.board.place_poly p a.1 a.2
        placed_count := st.placed_count + 1
        occupied_squares := st.occupied_squares + p.cells.length
        placed_polys := st.placed_polys ++ [(p, a.1, a.2)]
        inner_trials := st.inner_trials + n }
    | (none, n) => { st with inner_trials := st.inner_trials + n }

/-- One iteration of the outer `while` loop of `run_placement`: bump the
attempt counter, draw a shape from `chosen`, pick its color (possibly
updating the unique-color state), build and randomly orient the piece, and
run the bounding check plus inner anchor search. -/
def attempt_step (chosen : List (String × List Cell)) (cc : ColorChoice) (o : Oracle)
    (st : RunState) : RunState :=
  let t := st.total_attempts
  let nc := chosen.getD (o.pickIdx t % chosen.length) ("", [])
  let pcp := pick_color_step cc o t nc.1 st
  let st1 := { st with
               total_attempts := t + 1
               unique_color_map := pcp.2.1
               color_pool := pcp.2.2 }
  let p := random_orientation (o.rotCount t % 4) (o.doFlip t) (Polyomino.make nc.2 pcp.1 nc.1)
  try_piece st1 p ((List.range inner_attempts).map fun i => (o.anchorX t i, o.anchorY t i))

/-- The outer `while occupied_squares < target_squares and total_attempts <
max_total_attempts` loop, with fuel: starting from `total_attempts = 0` with
fuel `max_total_attempts`, the fuel never runs out before the condition
fails. -/
def run_loop (chosen : List (String × List Cell)) (cc : ColorChoice) (target : Nat)
    (o : Oracle) : Nat → RunState → RunState
  | 0, st => st
  | fuel + 1, st =>
    if st.occupied_squares < target ∧ st.total_attempts < max_total_attempts then
      run_loop chosen cc target o fuel (attempt_step chosen cc o st)
    else st

/-- The fresh per-run state: new square board with an empty grid, zero
counters, empty color state (`color_pool` starts as the oracle's shuffled
palette copy only under the unique policy, matching lines 348-350). -/
def init_state (boardSize : Int) : RunState :=
  { board := { cols := boardSize, rows := boardSize, cellSize := 36, origin := (32, 32), grid := [] }
    placed_polys := []
    placed_count := 0
    occupied_squares := 0
    total_attempts := 0
    unique_color_map := []
    color_pool := []
    inner_trials := 0 }

/-- The fresh state at the top of the loop: as `init_state`, except that
under the unique policy `color_pool` starts as the oracle's shuffled palette
copy (lines 348-350). -/
def run_start (boardSize : Int) (cc : ColorChoice) (o : Oracle) : RunState :=
  { board := { cols := boardSize, rows := boardSize, cellSize := 36, origin := (32, 32), grid := [] }
    placed_polys := []
    placed_count := 0
    occupied_squares := 0
    total_attempts := 0
    unique_color_map := []
    color_pool := if cc = ColorChoice.unique then o.initPool else []
    inner_trials := 0 }

/-- `run_placement` of polyomino_v4.py, with the eligible shape list, color
policy, coverage target and random stream as explicit inputs: reset the
board and counters, return immediately if no shapes are eligible, otherwise
run the bounded placement loop. -/
def run_placement (boardSize : Int) (chosen : List (String × List Cell))
    (cc : ColorChoice) (target : Nat) (o : Oracle) : RunState :=
  if chosen.isEmpty then init_state boardSize
  else run_loop chosen cc target o max_total_attempts (run_start boardSize cc o)

/-- The two terminal outcomes of the engine. -/
inductive Outcome where
  | target_reached
  | attempts_exhausted
deriving DecidableEq, Repr

/-- Outcome classification at loop exit: `target-reached` iff the occupied
count reached the target. -/
def outcome_of (st : RunState) (target : Nat) : Outcome :=
  if target ≤ st.occupied_squares then Outcome.target_reached
  else Outcome.attempts_exhausted

/-- `math.ceil(cols * rows * density)`, the coverage target, with the density
fraction modeled as a rational. -/
def compute_target (cols rows : Int) (density : ℚ) : Int :=
  Int.ceil ((cols : ℚ) * (rows : ℚ) * density)

/-- The absolute cells covered by one placement record. -/
def abs_cells (r : Polyomino × Int × Int) : List Cell :=
  r.1.cells.map fun c => (r.2.1 + c.1, r.2.2 + c.2)

/-! ### Concrete fixtures used by witness theorems -/

/-- A single 3-cell shape, as in the 10 by 10 scenario ("tri-I"). -/
def chosen_tri : List (String × List Cell) := [("tri-I", [(0, 0), (1, 0), (2, 0)])]

/-- A concrete random stream: always pick index 0, never rotate or flip, and
propose anchors that tile rows left to right (attempt `t` proposes
`(3 * (t % 3), t / 3)`). -/
def scenario_oracle : Oracle :=
  { pickIdx := fun _ => 0
    rotCount := fun _ => 0
    doFlip := fun _ => false
    anchorX := fun t _ => ((3 * (t % 3) : Nat) : Int)
    anchorY := fun t _ => ((t / 3 : Nat) : Int)
    initPool := PALETTE
    refillPool := fun _ => PALETTE
    randColor := fun _ => (0, 0, 255)
    sharedColor := (255, 0, 0) }

/-- A default placement record (for `List.getD`). -/
def default_rec : Polyomino × Int × Int := ({ cells := [], name := "poly", color := (0, 0, 0) }, 0, 0)

/-- A concrete board with one occupied cell, for the `place_poly` witness. -/
def board_w : Board :=
  { cols := 5, rows := 5, cellSize := 36, origin := (32, 32), grid := [(((4 : Int), (4 : Int)), (1, 2, 3))] }

/-- A concrete 3-cell piece for witnesses. -/
def poly_w : Polyomino := { cells := [(0, 0), (1, 0), (2, 0)], name := "tri-I", color := (9, 9, 9) }

/-- A concrete L-triomino for the `random_orientation` witness. -/
def poly_l : Polyomino := { cells := [(0, 0), (0, 1), (1, 1)], name := "tri-L", color := (7, 7, 7) }

/-- A concrete operation sequence with an out-of-bounds unchecked `place_poly`
call, an overwriting double placement, and a `clear`. -/
def ops_w : List BoardOp :=
  [BoardOp.place poly_w (-1) 0, BoardOp.place poly_w (-1) 0, BoardOp.clear,
   BoardOp.place poly_w 3 4, BoardOp.place poly_w 3 4]

/-- A concrete piece cycle mid-run: bag holds a shuffled copy of the pieces. -/
def cycle_w : PieceCycle Nat :=
  { pieces := [1, 2, 3], pool := [3, 1, 2], shuffles := fun _ => [2, 3, 1], refills := 1 }

/-! ### Lemmas and theorems -/

theorem listMin_cons_cons (x y : Int) (rest : List Int) :
    listMin (x :: y :: rest) = min x (listMin (y :: rest)) := rfl

theorem listMin_map_add (a : Int) :
    ∀ l : List Int, l ≠ [] → listMin (l.map fun x => x + a) = listMin l + a := by
  intro l
  induction l with
  | nil => intro h; exact absurd rfl h
  | cons x xs ih =>
    intro _
    cases xs with
    | nil => rfl
    | cons y ys =>
      have hih := ih (by simp)
      simp only [List.map_cons] at hih ⊢
      rw [listMin_cons_cons, listMin_cons_cons, hih]
      omega

theorem normalize_eq (l : List Cell) (h : l ≠ []) :
    normalize l =
      l.map fun q => (q.1 - listMin (l.map Prod.fst), q.2 - listMin (l.map Prod.snd)) := by
  cases l with
  | nil => exact absurd rfl h
  | cons c cs => rfl

theorem map_fst_ne_nil {l : List Cell} (h : l ≠ []) : l.map Prod.fst ≠ [] := by
  cases l with
  | nil => exact absurd rfl h
  | cons c cs => simp

theorem map_snd_ne_nil {l : List Cell} (h : l ≠ []) : l.map Prod.snd ≠ [] := by
  cases l with
  | nil => exact absurd rfl h
  | cons c cs => simp

theorem translate_ne_nil {t : Cell} {l : List Cell} (h : l ≠ []) : translate t l ≠ [] := by
  cases l with
  | nil => exact absurd rfl h
  | cons c cs => simp [translate]

/-- Normalization is invariant under translation of the input. -/
theorem normalize_translate (t : Cell) (l : List Cell) :
    normalize (translate t l) = normalize l := by
  rcases eq_or_ne l [] with h | h
  · subst h; rfl
  · have ht := translate_ne_nil (t := t) h
    rw [normalize_eq _ ht, normalize_eq _ h]
    have hfst : (translate t l).map Prod.fst = (l.map Prod.fst).map fun x => x + t.1 := by
      simp [translate, List.map_map, Function.comp]
    have hsnd : (translate t l).map Prod.snd = (l.map Prod.snd).map fun x => x + t.2 := by
      simp [translate, List.map_map, Function.comp]
    rw [hfst, hsnd, listMin_map_add _ _ (map_fst_ne_nil h), listMin_map_add _ _ (map_snd_ne_nil h)]
    simp only [translate, List.map_map]
    apply List.map_congr_left
    intro q _
    simp only [Function.comp, Prod.mk.injEq]
    omega

/-- On a nonempty list, `normalize` is a translation. -/
theorem normalize_as_translate (l : List Cell) (h : l ≠ []) :
    normalize l =
      translate (-(listMin (l.map Prod.fst)), -(listMin (l.map Prod.snd))) l := by
  rw [normalize_eq _ h]
  apply List.map_congr_left
  intro q _
  simp only [translate, Prod.mk.injEq]
  omega

theorem map_rotCell_translate (t : Cell) (l : List Cell) :
    (translate t l).map rotCell = translate (t.2, -t.1) (l.map rotCell) := by
  simp only [translate, List.map_map]
  apply List.map_congr_left
  intro q _
  simp only [Function.comp_apply, rotCell, Prod.mk.injEq]
  constructor <;> ring_nf

theorem map_flipCell_translate (t : Cell) (l : List Cell) :
    (translate t l).map flipCell = translate (-t.1, t.2) (l.map flipCell) := by
  simp only [translate, List.map_map]
  apply List.map_congr_left
  intro q _
  simp only [Function.comp_apply, flipCell, Prod.mk.injEq]
  constructor <;> ring_nf

/-- Rotating a normalized list gives the same result as rotating the raw list. -/
theorem rotate90_normalize (l : List Cell) : rotate90 (normalize l) = rotate90 l := by
  rcases eq_or_ne l [] with h | h
  · subst h; rfl
  · unfold rotate90
    rw [normalize_as_translate l h, map_rotCell_translate, normalize_translate]

/-- Flipping a normalized list gives the same result as flipping the raw list. -/
theorem flip_horizontal_normalize (l : List Cell) :
    flip_horizontal (normalize l) = flip_horizontal l := by
  rcases eq_or_ne l [] with h | h
  · subst h; rfl
  · unfold flip_horizontal
    rw [normalize_as_translate l h, map_flipCell_translate, normalize_translate]

/-- `normalize` is idempotent. -/
theorem normalize_idem (l : List Cell) : normalize (normalize l) = normalize l := by
  rcases eq_or_ne l [] with h | h
  · subst h; rfl
  · rw [normalize_as_translate l h, normalize_translate, normalize_as_translate l h]

theorem normalize_rotate90 (l : List Cell) : normalize (rotate90 l) = rotate90 l := by
  unfold rotate90
  exact normalize_idem _

theorem normalize_flip_horizontal (l : List Cell) :
    normalize (flip_horizontal l) = flip_horizontal l := by
  unfold flip_horizontal
  exact normalize_idem _

theorem normalize_length (l : List Cell) : (normalize l).length = l.length := by
  rcases eq_or_ne l [] with h | h
  · subst h; rfl
  · rw [normalize_eq _ h, List.length_map]

theorem rotate90_length (l : List Cell) : (rotate90 l).length = l.length := by
  unfold rotate90
  rw [normalize_length, List.length_map]

theorem flip_horizontal_length (l : List Cell) : (flip_horizontal l).length = l.length := by
  unfold flip_horizontal
  rw [normalize_length, List.length_map]

theorem map_rotCell_four (l : List Cell) :
    (((l.map rotCell).map rotCell).map rotCell).map rotCell = l := by
  simp only [List.map_map]
  have h : (rotCell ∘ rotCell ∘ rotCell ∘ rotCell) = id := by
    funext q
    simp [rotCell, Function.comp]
  rw [h, List.map_id]

/-! ### Association-list (Python dict) lemmas -/

section DictLemmas

variable {κ ν : Type} [DecidableEq κ]

theorem dictLookup_insert_self (k : κ) (v : ν) :
    ∀ l : List (κ × ν), dictLookup k (dictInsert k v l) = some v := by
  intro l
  induction l with
  | nil => simp [dictInsert, dictLookup]
  | cons kv rest ih =>
    by_cases h : kv.1 = k
    · simp [dictInsert, dictLookup, h]
    · simp [dictInsert, dictLookup, h, ih]

theorem dictLookup_insert_ne (k k2 : κ) (v : ν) (hne : k2 ≠ k) :
    ∀ l : List (κ × ν), dictLookup k2 (dictInsert k v l) = dictLookup k2 l := by
  have hkk : ¬ k = k2 := fun h => hne h.symm
  intro l
  induction l with
  | nil => simp [dictInsert, dictLookup, hkk]
  | cons kv rest ih =>
    by_cases h : kv.1 = k
    · subst h
      simp [dictInsert, dictLookup, hkk]
    · simp only [dictInsert, if_neg h, dictLookup]
      by_cases h2 : kv.1 = k2
      · simp [h2]
      · simp [h2, ih]

theorem dictInsert_length_of_none {k : κ} {l : List (κ × ν)} (v : ν)
    (h : dictLookup k l = none) :
    (dictInsert k v l).length = l.length + 1 := by
  induction l with
  | nil => rfl
  | cons kv rest ih =>
    by_cases hk : kv.1 = k
    · simp [dictLookup, hk] at h
    · simp only [dictLookup, if_neg hk] at h
      simp [dictInsert, if_neg hk, ih h]

theorem dictLookup_insert_isSome {k k2 : κ} {v : ν} {l : List (κ × ν)}
    (h : (dictLookup k2 (dictInsert k v l)).isSome = true) :
    k2 = k ∨ (dictLookup k2 l).isSome = true := by
  by_cases he : k2 = k
  · exact Or.inl he
  · right
    rw [dictLookup_insert_ne k k2 v he l] at h
    exact h

end DictLemmas

/-! ### `can_place` and `place_poly` lemmas -/

/-- Unpacked form of `Board.can_place`. -/
theorem can_place_spec (b : Board) (p : Polyomino) (gx gy : Int) :
    b.can_place p gx gy = true ↔
      ∀ c ∈ p.cells,
        in_bounds b (gx + c.1) (gy + c.2) ∧
          dictLookup (gx + c.1, gy + c.2) b.grid = none := by
  have hi : ∀ x : Option Color, x.isSome = false ↔ x = none := by
    intro x; cases x <;> simp
  simp only [Board.can_place, List.all_eq_true, Bool.and_eq_true, decide_eq_true_eq,
    Bool.not_eq_true', hi]

theorem translate_cell_inj (gx gy : Int) {c1 c2 : Cell}
    (h : ((gx + c1.1, gy + c1.2) : Cell) = (gx + c2.1, gy + c2.2)) : c1 = c2 := by
  rcases c1 with ⟨x1, y1⟩
  rcases c2 with ⟨x2, y2⟩
  simp only [Prod.mk.injEq] at h ⊢
  omega

theorem place_fold_lookup_notmem (b : Board) (col : Color) (gx gy : Int) (k : Cell) :
    ∀ (cells : List Cell) (g : List (Cell × Color)),
      (∀ c ∈ cells, k ≠ (gx + c.1, gy + c.2)) →
      dictLookup k
        (cells.foldl
          (fun g2 c =>
            if in_bounds b (gx + c.1) (gy + c.2) then
              dictInsert (gx + c.1, gy + c.2) col g2
            else g2)
          g) = dictLookup k g := by
  intro cells
  induction cells with
  | nil => intro g _; rfl
  | cons c cs ih =>
    intro g hk
    rw [List.foldl_cons, ih _ (fun c2 hc2 => hk c2 (List.mem_cons_of_mem _ hc2))]
    split
    · exact dictLookup_insert_ne _ _ _ (hk c (List.mem_cons_self _ _)) g
    · rfl

theorem place_fold_spec (b : Board) (col : Color) (gx gy : Int) :
    ∀ (cells : List Cell) (g : List (Cell × Color)),
      cells.Nodup →
      (∀ c ∈ cells,
        in_bounds b (gx + c.1) (gy + c.2) ∧ dictLookup (gx + c.1, gy + c.2) g = none) →
      (∀ c ∈ cells,
        dictLookup (gx + c.1, gy + c.2)
          (cells.foldl
            (fun g2 c2 =>
              if in_bounds b (gx + c2.1) (gy + c2.2) then
                dictInsert (gx + c2.1, gy + c2.2) col g2
              else g2)
            g) = some col) ∧
      (cells.foldl
        (fun g2 c2 =>
          if in_bounds b (gx + c2.1) (gy + c2.2) then
            dictInsert (gx + c2.1, gy + c2.2) col g2
          else g2)
        g).length = g.length + cells.length := by
  intro cells
  induction cells with
  | nil => intro g _ _; exact ⟨fun c hc => absurd hc (List.not_mem_nil c), rfl⟩
  | cons c cs ih =>
    intro g hnd hcond
    have hc := hcond c (List.mem_cons_self _ _)
    have hnotmem : c ∉ cs := (List.nodup_cons.mp hnd).1
    have hnd2 : cs.Nodup := (List.nodup_cons.mp hnd).2
    rw [List.foldl_cons, if_pos hc.1]
    have hcond2 : ∀ c2 ∈ cs,
        in_bounds b (gx + c2.1) (gy + c2.2) ∧
          dictLookup (gx + c2.1, gy + c2.2) (dictInsert (gx + c.1, gy + c.2) col g) = none := by
      intro c2 hc2
      refine ⟨(hcond c2 (List.mem_cons_of_mem _ hc2)).1, ?_⟩
      have hne : ((gx + c2.1, gy + c2.2) : Cell) ≠ (gx + c.1, gy + c.2) := by
        intro he
        exact hnotmem (translate_cell_inj gx gy he ▸ hc2)
      rw [dictLookup_insert_ne _ _ _ hne g]
      exact (hcond c2 (List.mem_cons_of_mem _ hc2)).2
    have hres := ih (dictInsert (gx + c.1, gy + c.2) col g) hnd2 hcond2
    refine ⟨?_, ?_⟩
    · intro c2 hc2
      rcases List.mem_cons.mp hc2 with he | hm
      · subst he
        have hknot : ∀ c3 ∈ cs, ((gx + c2.1, gy + c2.2) : Cell) ≠ (gx + c3.1, gy + c3.2) := by
          intro c3 hc3 he
          exact hnotmem (translate_cell_inj gx gy he ▸ hc3)
        rw [place_fold_lookup_notmem b col gx gy _ cs _ hknot]
        exact dictLookup_insert_self _ _ g
      · exact hres.1 c2 hm
    · rw [hres.2, dictInsert_length_of_none col hc.2]
      simp only [List.length_cons]
      omega

theorem place_fold_isSome_mono (b : Board) (col : Color) (gx gy : Int) (k : Cell) :
    ∀ (cells : List Cell) (g : List (Cell × Color)),
      (dictLookup k g).isSome = true →
      (dictLookup k
        (cells.foldl
          (fun g2 c =>
            if in_bounds b (gx + c.1) (gy + c.2) then
              dictInsert (gx + c.1, gy + c.2) col g2
            else g2)
          g)).isSome = true := by
  intro cells
  induction cells with
  | nil => intro g h; exact h
  | cons c cs ih =>
    intro g h
    rw [List.foldl_cons]
    apply ih
    split
    · by_cases he : k = (gx + c.1, gy + c.2)
      · subst he
        rw [dictLookup_insert_self]
        rfl
      · rw [dictLookup_insert_ne _ _ _ he g]
        exact h
    · exact h

theorem place_fold_isSome_bound (b : Board) (col : Color) (gx gy : Int) :
    ∀ (cells : List Cell) (g : List (Cell × Color)) (k : Cell),
      (dictLookup k
        (cells.foldl
          (fun g2 c =>
            if in_bounds b (gx + c.1) (gy + c.2) then
              dictInsert (gx + c.1, gy + c.2) col g2
            else g2)
          g)).isSome = true →
      (dictLookup k g).isSome = true ∨ in_bounds b k.1 k.2 := by
  intro cells
  induction cells with
  | nil => intro g k h; exact Or.inl h
  | cons c cs ih =>
    intro g k h
    rw [List.foldl_cons] at h
    rcases ih _ k h with h2 | h2
    · by_cases hc : in_bounds b (gx + c.1) (gy + c.2)
      · rw [if_pos hc] at h2
        rcases dictLookup_insert_isSome h2 with he | h3
        · subst he
          exact Or.inr hc
        · exact Or.inl h3
      · rw [if_neg hc] at h2
        exact Or.inl h2
    · exact Or.inr h2

/-- Under a successful `can_place`, `place_poly` writes every translated cell
with the shape's color and the grid grows by exactly the number of cells. -/
theorem place_poly_spec (b : Board) (p : Polyomino) (gx gy : Int)
    (hnd : p.cells.Nodup) (h : b.can_place p gx gy = true) :
    (∀ c ∈ p.cells,
      dictLookup (gx + c.1, gy + c.2) (b.place_poly p gx gy).grid = some p.color) ∧
    (b.place_poly p gx gy).grid.length = b.grid.length + p.cells.length :=
  place_fold_spec b p.color gx gy p.cells b.grid hnd ((can_place_spec b p gx gy).mp h)

/-- `place_poly` does not touch keys outside the translated cell set. -/
theorem place_poly_lookup_other (b : Board) (p : Polyomino) (gx gy : Int) (k : Cell)
    (hk : ∀ c ∈ p.cells, k ≠ (gx + c.1, gy + c.2)) :
    dictLookup k (b.place_poly p gx gy).grid = dictLookup k b.grid :=
  place_fold_lookup_notmem b p.color gx gy k p.cells b.grid hk

/-- Occupied keys stay occupied across `place_poly`. -/
theorem place_poly_isSome_mono (b : Board) (p : Polyomino) (gx gy : Int) (k : Cell)
    (h : (dictLookup k b.grid).isSome = true) :
    (dictLookup k (b.place_poly p gx gy).grid).isSome = true :=
  place_fold_isSome_mono b p.color gx gy k p.cells b.grid h

/-- Every key of the grid after `place_poly` was already occupied or lies in
bounds (the bounds guard inside `place_poly`). -/
theorem place_poly_isSome_bound (b : Board) (p : Polyomino) (gx gy : Int) (k : Cell)
    (h : (dictLookup k (b.place_poly p gx gy).grid).isSome = true) :
    (dictLookup k b.grid).isSome = true ∨ in_bounds b k.1 k.2 :=
  place_fold_isSome_bound b p.color gx gy p.cells b.grid k h

/-! ### Polyomino and orientation lemmas -/

theorem rotated_cells (p : Polyomino) : p.rotated.cells = rotate90 p.cells :=
  normalize_rotate90 p.cells

theorem flipped_cells (p : Polyomino) : p.flipped.cells = flip_horizontal p.cells :=
  normalize_flip_horizontal p.cells

theorem random_orientation_name (rotates : Nat) (doFlip : Bool) (p : Polyomino) :
    (random_orientation rotates doFlip p).name = p.name := rfl

theorem random_orientation_color (rotates : Nat) (doFlip : Bool) (p : Polyomino) :
    (random_orientation rotates doFlip p).color = p.color := rfl

theorem rotIter_cells_length (n : Nat) :
    ∀ p : Polyomino, (rotIter n p).cells.length = p.cells.length := by
  induction n with
  | zero => intro p; rfl
  | succ m ih =>
    intro p
    show (rotIter m p.rotated).cells.length = _
    rw [ih p.rotated, rotated_cells, rotate90_length]

theorem random_orientation_cells_length (rotates : Nat) (doFlip : Bool) (p : Polyomino) :
    (random_orientation rotates doFlip p).cells.length = p.cells.length := by
  show (normalize (if doFlip then (rotIter rotates p).flipped else rotIter rotates p).cells).length = _
  rw [normalize_length]
  cases doFlip with
  | false => exact rotIter_cells_length rotates p
  | true =>
    show (rotIter rotates p).flipped.cells.length = _
    rw [flipped_cells, flip_horizontal_length]
    exact rotIter_cells_length rotates p

theorem make_cells_length (cells : List Cell) (col : Color) (name : String) :
    (Polyomino.make cells col name).cells.length = cells.length :=
  normalize_length cells

/-! ### try_place_and_record lemmas -/

theorem try_place_and_record_success (st : DrawState) (p : Polyomino) (gx gy : Int)
    (h : st.board.can_place p gx gy = true) :
    (try_place_and_record st p gx gy).1 = true ∧
    (try_place_and_record st p gx gy).2.placed_count = st.placed_count + 1 ∧
    (try_place_and_record st p gx gy).2.occupied_squares =
      st.occupied_squares + p.cells.length := by
  have hs := (can_place_spec _ p gx gy).mp h
  have h1 : ((p.cells.map fun c => ((gx + c.1, gy + c.2) : Cell)).all
      fun pos => decide (in_bounds st.board pos.1 pos.2)) = true := by
    simp only [List.all_eq_true, List.mem_map, decide_eq_true_eq, forall_exists_index, and_imp]
    rintro pos c hc rfl
    exact (hs c hc).1
  have h2 : ((p.cells.map fun c => ((gx + c.1, gy + c.2) : Cell)).any
      fun pos => (dictLookup pos st.board.grid).isSome) = false := by
    simp only [List.any_eq_false, List.mem_map, forall_exists_index, and_imp]
    rintro pos c hc rfl
    rw [(hs c hc).2]
    simp
  simp only [try_place_and_record, h1, h2]
  simp [List.length_map]

/-! ### Engine-loop lemmas -/

theorem find_anchor_le (b : Board) (p : Polyomino) :
    ∀ l : List (Int × Int), (find_anchor b p l).2 ≤ l.length := by
  intro l
  induction l with
  | nil => exact Nat.le_refl 0
  | cons a rest ih =>
    simp only [find_anchor]
    split
    · simp
    · simpa using Nat.add_le_add_right ih 1

theorem find_anchor_some (b : Board) (p : Polyomino) :
    ∀ (l : List (Int × Int)) (a : Int × Int),
      (find_anchor b p l).1 = some a → b.can_place p a.1 a.2 = true := by
  intro l
  induction l with
  | nil => intro a h; cases h
  | cons a0 rest ih =>
    intro a h
    simp only [find_anchor] at h
    by_cases hc : b.can_place p a0.1 a0.2
    · rw [if_pos hc] at h
      cases h
      exact hc
    · rw [if_neg hc] at h
      exact ih a h

theorem try_piece_spec (st : RunState) (p : Polyomino) (anchors : List (Int × Int)) :
    (try_piece st p anchors).total_attempts = st.total_attempts ∧
    (try_piece st p anchors).unique_color_map = st.unique_color_map ∧
    (try_piece st p anchors).color_pool = st.color_pool ∧
    (try_piece st p anchors).inner_trials ≤ st.inner_trials + anchors.length ∧
    (((try_piece st p anchors).board = st.board ∧
      (try_piece st p anchors).occupied_squares = st.occupied_squares ∧
      (try_piece st p anchors).placed_polys = st.placed_polys ∧
      (try_piece st p anchors).placed_count = st.placed_count) ∨
     (∃ gx gy, st.board.can_place p gx gy = true ∧
       (try_piece st p anchors).board = st.board.place_poly p gx gy ∧
       (try_piece st p anchors).occupied_squares = st.occupied_squares + p.cells.length ∧
       (try_piece st p anchors).placed_polys = st.placed_polys ++ [(p, gx, gy)] ∧
       (try_piece st p anchors).placed_count = st.placed_count + 1)) := by
  unfold try_piece
  split
  · exact ⟨rfl, rfl, rfl, Nat.le_add_right _ _, Or.inl ⟨rfl, rfl, rfl, rfl⟩⟩
  · split
    next a n heq =>
      have hn : n ≤ anchors.length := by
        have hle := find_anchor_le st.board p anchors
        rw [heq] at hle
        exact hle
      have hs : st.board.can_place p a.1 a.2 = true := by
        apply find_anchor_some st.board p anchors a
        rw [heq]
      exact ⟨rfl, rfl, rfl, Nat.add_le_add_left hn _,
        Or.inr ⟨a.1, a.2, hs, rfl, rfl, rfl, rfl⟩⟩
    next n heq =>
      have hn : n ≤ anchors.length := by
        have hle := find_anchor_le st.board p anchors
        rw [heq] at hle
        exact hle
      exact ⟨rfl, rfl, rfl, Nat.add_le_add_left hn _, Or.inl ⟨rfl, rfl, rfl, rfl⟩⟩

theorem getD_mod_mem {α : Type} (l : List α) (i : Nat) (d : α) (h : l ≠ []) :
    l.getD (i % l.length) d ∈ l := by
  have hlen : 0 < l.length := List.length_pos.mpr h
  have hi : i % l.length < l.length := Nat.mod_lt _ hlen
  rw [List.getD_eq_getElem l d hi]
  exact List.getElem_mem hi

/-- Everything one outer attempt can do: the attempt counter goes up by one,
the color state is updated by `pick_color_step` for the drawn name, at most
`inner_attempts` anchor trials happen, and either nothing is placed or the
randomly oriented piece built from a member of `chosen` is placed at an
anchor that passed `can_place`. -/
theorem attempt_step_spec (chosen : List (String × List Cell)) (cc : ColorChoice)
    (o : Oracle) (st : RunState) (hch : chosen ≠ []) :
    ∃ nc p, nc ∈ chosen ∧
      p = random_orientation (o.rotCount st.total_attempts % 4) (o.doFlip st.total_attempts)
            (Polyomino.make nc.2 (pick_color_step cc o st.total_attempts nc.1 st).1 nc.1) ∧
      (attempt_step chosen cc o st).total_attempts = st.total_attempts + 1 ∧
      (attempt_step chosen cc o st).unique_color_map =
        (pick_color_step cc o st.total_attempts nc.1 st).2.1 ∧
      (attempt_step chosen cc o st).inner_trials ≤ st.inner_trials + inner_attempts ∧
      (((attempt_step chosen cc o st).board = st.board ∧
        (attempt_step chosen cc o st).occupied_squares = st.occupied_squares ∧
        (attempt_step chosen cc o st).placed_polys = st.placed_polys ∧
        (attempt_step chosen cc o st).placed_count = st.placed_count) ∨
       (∃ gx gy, st.board.can_place p gx gy = true ∧
         (attempt_step chosen cc o st).board = st.board.place_poly p gx gy ∧
         (attempt_step chosen cc o st).occupied_squares =
           st.occupied_squares + p.cells.length ∧
         (attempt_step chosen cc o st).placed_polys = st.placed_polys ++ [(p, gx, gy)] ∧
         (attempt_step chosen cc o st).placed_count = st.placed_count + 1)) := by
  refine ⟨chosen.getD (o.pickIdx st.total_attempts % chosen.length) ("", []),
    random_orientation (o.rotCount st.total_attempts % 4) (o.doFlip st.total_attempts)
      (Polyomino.make
        (chosen.getD (o.pickIdx st.total_attempts % chosen.length) ("", [])).2
        (pick_color_step cc o st.total_attempts
          (chosen.getD (o.pickIdx st.total_attempts % chosen.length) ("", [])).1 st).1
        (chosen.getD (o.pickIdx st.total_attempts % chosen.length) ("", [])).1),
    getD_mod_mem chosen _ _ hch, rfl, ?_⟩
  have h := try_piece_spec
    { st with
      total_attempts := st.total_attempts + 1
      unique_color_map :=
        (pick_color_step cc o st.total_attempts
          (chosen.getD (o.pickIdx st.total_attempts % chosen.length) ("", [])).1 st).2.1
      color_pool :=
        (pick_color_step cc o st.total_attempts
          (chosen.getD (o.pickIdx st.total_attempts % chosen.length) ("", [])).1 st).2.2 }
    (random_orientation (o.rotCount st.total_attempts % 4) (o.doFlip st.total_attempts)
      (Polyomino.make
        (chosen.getD (o.pickIdx st.total_attempts % chosen.length) ("", [])).2
        (pick_color_step cc o st.total_attempts
          (chosen.getD (o.pickIdx st.total_attempts % chosen.length) ("", [])).1 st).1
        (chosen.getD (o.pickIdx st.total_attempts % chosen.length) ("", [])).1))
    ((List.range inner_attempts).map fun i =>
      (o.anchorX st.total_attempts i, o.anchorY st.total_attempts i))
  have hlen : ((List.range inner_attempts).map fun i =>
      (o.anchorX st.total_attempts i, o.anchorY st.total_attempts i)).length =
        inner_attempts := by
    simp
  rw [hlen] at h
  exact ⟨h.1, h.2.1, h.2.2.2.1, h.2.2.2.2⟩

theorem attempt_step_total (chosen : List (String × List Cell)) (cc : ColorChoice)
    (o : Oracle) (st : RunState) :
    (attempt_step chosen cc o st).total_attempts = st.total_attempts + 1 := by
  simp only [attempt_step]
  exact (try_piece_spec _ _ _).1

theorem attempt_step_inner (chosen : List (String × List Cell)) (cc : ColorChoice)
    (o : Oracle) (st : RunState) :
    (attempt_step chosen cc o st).inner_trials ≤ st.inner_trials + inner_attempts := by
  simp only [attempt_step]
  refine le_trans (try_piece_spec _ _ _).2.2.2.1 ?_
  simp

/-- Invariant preservation through the outer loop. -/
theorem run_loop_inv (chosen : List (String × List Cell)) (cc : ColorChoice)
    (target : Nat) (o : Oracle) (P : RunState → Prop)
    (hstep : ∀ st, P st → st.occupied_squares < target →
      st.total_attempts < max_total_attempts → P (attempt_step chosen cc o st)) :
    ∀ fuel st, P st → P (run_loop chosen cc target o fuel st) := by
  intro fuel
  induction fuel with
  | zero => intro st h; exact h
  | succ n ih =>
    intro st h
    rw [run_loop]
    split
    next hc => exact ih _ (hstep st h hc.1 hc.2)
    next => exact h

/-- If the loop result is still below target, the attempt counter reached
`min max_total_attempts (start + fuel)`. -/
theorem run_loop_min (chosen : List (String × List Cell)) (cc : ColorChoice)
    (target : Nat) (o : Oracle) :
    ∀ fuel st,
      (run_loop chosen cc target o fuel st).occupied_squares < target →
      min max_total_attempts (st.total_attempts + fuel) ≤
        (run_loop chosen cc target o fuel st).total_attempts := by
  intro fuel
  induction fuel with
  | zero =>
    intro st _
    show min max_total_attempts (st.total_attempts + 0) ≤ st.total_attempts
    simp only [Nat.add_zero]
    exact Nat.min_le_right _ _
  | succ n ih =>
    intro st h
    by_cases hc : st.occupied_squares < target ∧ st.total_attempts < max_total_attempts
    · rw [run_loop, if_pos hc] at h ⊢
      have hih := ih (attempt_step chosen cc o st) h
      rw [attempt_step_total] at hih
      omega
    · rw [run_loop, if_neg hc] at h ⊢
      have h8 : max_total_attempts ≤ st.total_attempts := by
        rcases Decidable.not_and_iff_or_not.mp hc with h2 | h2
        · exact absurd h h2
        · omega
      exact le_trans (Nat.min_le_left _ _) h8

/-! ### PieceCycle lemmas -/

theorem nextN_drain {α : Type} :
    ∀ (l : List α) (s : PieceCycle α), s.pool = l →
      PieceCycle.nextN l.length s =
        (l.reverse.map some,
         { pieces := s.pieces, pool := [], shuffles := s.shuffles, refills := s.refills }) := by
  intro l
  induction l using List.reverseRecOn with
  | nil =>
    intro s hs
    cases s with
    | mk pieces pool shuffles refills =>
      simp only at hs
      subst hs
      rfl
  | append_singleton init a ih =>
    intro s hs
    have hne : s.pool.isEmpty = false := by
      rw [hs]
      simp
    have hnext : s.next = (some a, { s with pool := init }) := by
      simp only [PieceCycle.next]
      rw [if_neg (by simp [hne]), hs]
      simp [List.getLast?_concat, List.dropLast_concat]
    rw [List.length_append, List.length_singleton]
    show PieceCycle.nextN (init.length + 1) s = _
    simp only [PieceCycle.nextN, hnext]
    rw [ih { s with pool := init } rfl]
    simp [List.reverse_append]

/-- A translated cell of a placed shape is occupied afterwards (no `Nodup`
assumption needed). -/
theorem place_fold_isSome_mem (b : Board) (col : Color) (gx gy : Int) :
    ∀ (cells : List Cell) (g : List (Cell × Color)) (c : Cell), c ∈ cells →
      in_bounds b (gx + c.1) (gy + c.2) →
      (dictLookup (gx + c.1, gy + c.2)
        (cells.foldl
          (fun g2 c2 =>
            if in_bounds b (gx + c2.1) (gy + c2.2) then
              dictInsert (gx + c2.1, gy + c2.2) col g2
            else g2)
          g)).isSome = true := by
  intro cells
  induction cells with
  | nil => intro g c hc; cases hc
  | cons c0 cs ih =>
    intro g c hc hb
    rcases List.mem_cons.mp hc with he | hm
    · subst he
      rw [List.foldl_cons, if_pos hb]
      apply place_fold_isSome_mono
      rw [dictLookup_insert_self]
      rfl
    · rw [List.foldl_cons]
      exact ih _ c hm hb

theorem place_poly_isSome_mem (b : Board) (p : Polyomino) (gx gy : Int) (c : Cell)
    (hc : c ∈ p.cells) (hb : in_bounds b (gx + c.1) (gy + c.2)) :
    (dictLookup (gx + c.1, gy + c.2) (b.place_poly p gx gy).grid).isSome = true :=
  place_fold_isSome_mem b p.color gx gy p.cells b.grid c hc hb

theorem isEmpty_false_of_ne {α : Type} {l : List α} (h : l ≠ []) :
    l.isEmpty = false := by
  cases l with
  | nil => exact absurd rfl h
  | cons a as => rfl

/-! ### Claim theorems and witnesses -/

/-- C8: for every cell list, four applications of `rotate90` yield exactly the
normalized original cell list (hence a cell set equal to the original up to
normalization). -/
theorem rotate90_fourth_power (cells : List Cell) :
    rotate90 (rotate90 (rotate90 (rotate90 cells))) = normalize cells := by
  have e1 : rotate90 (rotate90 cells) = normalize ((cells.map rotCell).map rotCell) := by
    show rotate90 (normalize (cells.map rotCell)) = _
    rw [rotate90_normalize]
    rfl
  have e2 : rotate90 (rotate90 (rotate90 cells)) =
      normalize (((cells.map rotCell).map rotCell).map rotCell) := by
    rw [e1]
    show rotate90 (normalize _) = _
    rw [rotate90_normalize]
    rfl
  calc rotate90 (rotate90 (rotate90 (rotate90 cells)))
      = rotate90 (normalize (((cells.map rotCell).map rotCell).map rotCell)) := by rw [e2]
    _ = rotate90 (((cells.map rotCell).map rotCell).map rotCell) := rotate90_normalize _
    _ = normalize ((((cells.map rotCell).map rotCell).map rotCell).map rotCell) := rfl
    _ = normalize cells := by rw [map_rotCell_four]

/-- C2: `can_place` returns true iff every translated cell of the shape lies
within `[0, cols) x [0, rows)` and is absent from the occupancy map.  The
call is a pure query: in this embedding it has type
`Board -> Polyomino -> Int -> Int -> Bool` and returns no board, mirroring
that the source method only reads `self.grid` and mutates nothing. -/
theorem can_place_correct (b : Board) (p : Polyomino) (gx gy : Int) :
    b.can_place p gx gy = true ↔
      ∀ c ∈ p.cells,
        (0 ≤ gx + c.1 ∧ gx + c.1 < b.cols ∧ 0 ≤ gy + c.2 ∧ gy + c.2 < b.rows) ∧
          dictLookup (gx + c.1, gy + c.2) b.grid = none :=
  can_place_spec b p gx gy

/-- C1: after a true `can_place`, `place_poly` writes every translated cell
with the shape's color; the occupancy map grows by exactly the shape's cell
count; every key outside the translated cells is unchanged (in particular no
pre-existing occupied cell is overwritten); and the recording step
(`try_place_and_record`, which performs the same checks before writing)
succeeds, incrementing the piece counter by exactly 1 and the occupied-cell
counter by exactly the shape's cell count.  Shapes are sets of cells
(`Nodup`), per the data model. -/
theorem place_correct (b : Board) (p : Polyomino) (gx gy : Int)
    (hnd : p.cells.Nodup) (h : b.can_place p gx gy = true) :
    (∀ c ∈ p.cells,
      dictLookup (gx + c.1, gy + c.2) (b.place_poly p gx gy).grid = some p.color) ∧
    (b.place_poly p gx gy).grid.length = b.grid.length + p.cells.length ∧
    (∀ k : Cell, (∀ c ∈ p.cells, k ≠ (gx + c.1, gy + c.2)) →
      dictLookup k (b.place_poly p gx gy).grid = dictLookup k b.grid) ∧
    (∀ (k : Cell) (v : Color), dictLookup k b.grid = some v →
      dictLookup k (b.place_poly p gx gy).grid = some v) ∧
    (∀ st : DrawState, st.board = b →
      (try_place_and_record st p gx gy).1 = true ∧
      (try_place_and_record st p gx gy).2.placed_count = st.placed_count + 1 ∧
      (try_place_and_record st p gx gy).2.occupied_squares =
        st.occupied_squares + p.cells.length) := by
  have hps := place_poly_spec b p gx gy hnd h
  have hspec := (can_place_spec b p gx gy).mp h
  refine ⟨hps.1, hps.2, ?_, ?_, ?_⟩
  · intro k hk
    exact place_poly_lookup_other b p gx gy k hk
  · intro k v hv
    have hk : ∀ c ∈ p.cells, k ≠ (gx + c.1, gy + c.2) := by
      intro c hc he
      have hnone := (hspec c hc).2
      rw [← he, hv] at hnone
      cases hnone
    rw [place_poly_lookup_other b p gx gy k hk]
    exact hv
  · intro st hst
    subst hst
    exact try_place_and_record_success st p gx gy h

/-- C1 witness: placing the horizontal triomino at the origin of a 5 by 5
board with one pre-occupied far cell. -/
theorem place_correct_witness :
    dictLookup ((0 : Int) + (0 : Int), (0 : Int) + (0 : Int))
      (board_w.place_poly poly_w 0 0).grid = some (9, 9, 9) ∧
    (board_w.place_poly poly_w 0 0).grid.length = board_w.grid.length + poly_w.cells.length := by
  have h := place_correct board_w poly_w 0 0 (by decide) (by decide)
  exact ⟨h.1 (0, 0) (by decide), h.2.1⟩

/-- C10: `random_orientation` returns a polyomino whose cell set is one of
the eight normalized rotations/reflections of the input's normalized cell
set, with the same number of cells, and whose name and color are exactly the
input's original name and color (the intermediate `"_rot"`/`"_flip"`
suffixes never appear on the returned piece). -/
theorem random_orientation_spec (poly : Polyomino) (rotates : Nat) (doFlip : Bool)
    (h : rotates ≤ 3) :
    (random_orientation rotates doFlip poly).cells ∈ orientations poly.cells ∧
    (random_orientation rotates doFlip poly).cells.length = poly.cells.length ∧
    (random_orientation rotates doFlip poly).name = poly.name ∧
    (random_orientation rotates doFlip poly).color = poly.color := by
  refine ⟨?_, random_orientation_cells_length _ _ _, rfl, rfl⟩
  have horr : orientations poly.cells =
      [normalize poly.cells, rotate90 poly.cells, rotate90 (rotate90 poly.cells),
       rotate90 (rotate90 (rotate90 poly.cells)),
       flip_horizontal poly.cells, flip_horizontal (rotate90 poly.cells),
       flip_horizontal (rotate90 (rotate90 poly.cells)),
       flip_horizontal (rotate90 (rotate90 (rotate90 poly.cells)))] := by
    simp only [orientations, rotate90_normalize, flip_horizontal_normalize]
  rw [horr]
  interval_cases rotates <;> cases doFlip <;>
    simp [random_orientation, rotIter, Polyomino.make, rotated_cells, flipped_cells,
      normalize_rotate90, normalize_flip_horizontal, normalize_idem]

/-- C10 witness: rotating the L-triomino twice and flipping it. -/
theorem random_orientation_spec_witness :
    (random_orientation 2 true poly_l).cells ∈ orientations poly_l.cells ∧
    (random_orientation 2 true poly_l).cells.length = poly_l.cells.length ∧
    (random_orientation 2 true poly_l).name = poly_l.name ∧
    (random_orientation 2 true poly_l).color = poly_l.color :=
  random_orientation_spec poly_l 2 true (by decide)

/-- C7: starting from any state whose bag is a shuffled copy of the eligible
pieces, the next `n = pieces.length` calls to `next` return each member of
the eligible set exactly once (a permutation of the pieces), leaving the bag
empty; a call on an empty bag refills it with a fresh shuffled copy from the
random stream and pops from that copy; and `init` fills the bag with the
first shuffled copy. -/
theorem piece_cycle_no_repeat {α : Type} (s : PieceCycle α) (h : s.pool.Perm s.pieces) :
    (∃ l : List α, (PieceCycle.nextN s.pieces.length s).1 = l.map some ∧ l.Perm s.pieces) ∧
    (PieceCycle.nextN s.pieces.length s).2.pool = [] ∧
    (PieceCycle.nextN s.pieces.length s).2.pieces = s.pieces ∧
    (∀ t : PieceCycle α, t.pool = [] →
      t.next = ((t.shuffles t.refills).getLast?,
        { pieces := t.pieces, pool := (t.shuffles t.refills).dropLast,
          shuffles := t.shuffles, refills := t.refills + 1 })) ∧
    (∀ (pieces : List α) (sh : Nat → List α), (PieceCycle.init pieces sh).pool = sh 0) := by
  have hlen : s.pieces.length = s.pool.length := h.length_eq.symm
  have hdrain := nextN_drain s.pool s rfl
  rw [hlen, hdrain]
  refine ⟨⟨s.pool.reverse, rfl, (List.reverse_perm s.pool).trans h⟩, rfl, rfl, ?_, ?_⟩
  · intro t ht
    simp [PieceCycle.next, PieceCycle.refill, ht]
  · intro pieces sh
    rfl

/-- C7 witness: a three-piece cycle mid-run with bag `[3, 1, 2]`. -/
theorem piece_cycle_no_repeat_witness :
    (∃ l : List Nat, (PieceCycle.nextN cycle_w.pieces.length cycle_w).1 = l.map some ∧
      l.Perm cycle_w.pieces) ∧
    (PieceCycle.nextN cycle_w.pieces.length cycle_w).2.pool = [] :=
  have h := piece_cycle_no_repeat cycle_w (by decide)
  ⟨h.1, h.2.1⟩

/-- C9: with an empty eligible shape set the engine performs zero placements,
raises no exception (it is a total function returning the fresh state), and
its outcome classification is `attempts_exhausted`, which is distinct from
`target_reached`. -/
theorem empty_chosen_exhausted (boardSize : Int) (cc : ColorChoice) (target : Nat)
    (o : Oracle) (ht : 0 < target) :
    (run_placement boardSize [] cc target o).placed_count = 0 ∧
    (run_placement boardSize [] cc target o).placed_polys = [] ∧
    (run_placement boardSize [] cc target o).occupied_squares = 0 ∧
    outcome_of (run_placement boardSize [] cc target o) target =
      Outcome.attempts_exhausted ∧
    Outcome.attempts_exhausted ≠ Outcome.target_reached := by
  have he : run_placement boardSize [] cc target o = init_state boardSize := by
    simp [run_placement]
  rw [he]
  have hocc : ¬ (target ≤ (init_state boardSize).occupied_squares) := by
    show ¬ (target ≤ 0)
    omega
  refine ⟨rfl, rfl, rfl, ?_, by simp⟩
  unfold outcome_of
  rw [if_neg hocc]

/-- C9 witness: a 10 by 10 run with target 20 and no shapes. -/
theorem empty_chosen_exhausted_witness :
    (run_placement 10 [] ColorChoice.same 20 scenario_oracle).placed_count = 0 ∧
    (run_placement 10 [] ColorChoice.same 20 scenario_oracle).placed_polys = [] ∧
    (run_placement 10 [] ColorChoice.same 20 scenario_oracle).occupied_squares = 0 ∧
    outcome_of (run_placement 10 [] ColorChoice.same 20 scenario_oracle) 20 =
      Outcome.attempts_exhausted ∧
    Outcome.attempts_exhausted ≠ Outcome.target_reached :=
  empty_chosen_exhausted 10 ColorChoice.same 20 scenario_oracle (by decide)

/-- C4: the engine always terminates within its budgets: the final attempt
counter never exceeds `max_total_attempts = 8000`; the accumulated anchor
trials never exceed `total_attempts * inner_attempts`, hence never
`max_total_attempts * inner_attempts`; and any single outer attempt consumes
at most `inner_attempts = 200` anchor trials. -/
theorem engine_attempts_bounded (boardSize : Int) (chosen : List (String × List Cell))
    (cc : ColorChoice) (target : Nat) (o : Oracle) :
    (run_placement boardSize chosen cc target o).total_attempts ≤ max_total_attempts ∧
    (run_placement boardSize chosen cc target o).inner_trials ≤
      (run_placement boardSize chosen cc target o).total_attempts * inner_attempts ∧
    (run_placement boardSize chosen cc target o).inner_trials ≤
      max_total_attempts * inner_attempts ∧
    (∀ st : RunState,
      (attempt_step chosen cc o st).inner_trials ≤ st.inner_trials + inner_attempts) ∧
    max_total_attempts = 8000 ∧ inner_attempts = 200 := by
  have hmain : (run_placement boardSize chosen cc target o).total_attempts ≤
      max_total_attempts ∧
      (run_placement boardSize chosen cc target o).inner_trials ≤
        (run_placement boardSize chosen cc target o).total_attempts * inner_attempts := by
    unfold run_placement
    split
    · exact ⟨Nat.zero_le _, Nat.le_refl 0⟩
    · apply run_loop_inv chosen cc target o
        (fun st => st.total_attempts ≤ max_total_attempts ∧
          st.inner_trials ≤ st.total_attempts * inner_attempts)
      · intro st hP _ htot
        constructor
        · rw [attempt_step_total]
          omega
        · calc (attempt_step chosen cc o st).inner_trials
              ≤ st.inner_trials + inner_attempts := attempt_step_inner chosen cc o st
            _ ≤ st.total_attempts * inner_attempts + inner_attempts := by
                have := hP.2
                omega
            _ = (st.total_attempts + 1) * inner_attempts := by ring
            _ = (attempt_step chosen cc o st).total_attempts * inner_attempts := by
                rw [attempt_step_total]
      · exact ⟨Nat.zero_le _, Nat.le_refl 0⟩
  exact ⟨hmain.1, hmain.2, le_trans hmain.2 (Nat.mul_le_mul_right _ hmain.1),
    attempt_step_inner chosen cc o, rfl, rfl⟩

/-- Helper for C3: the loop leaves the run either below target or with the
last placed shape accounting for the whole overshoot. -/
theorem run_placement_below_or_overshoot (boardSize : Int)
    (chosen : List (String × List Cell)) (cc : ColorChoice) (target : Nat) (o : Oracle)
    (hch : chosen ≠ []) (h0 : 0 < target) :
    (run_placement boardSize chosen cc target o).occupied_squares < target ∨
    ∃ pre rec,
      (run_placement boardSize chosen cc target o).placed_polys = pre ++ [rec] ∧
      (run_placement boardSize chosen cc target o).occupied_squares <
        target + rec.1.cells.length := by
  unfold run_placement
  rw [if_neg (by rw [isEmpty_false_of_ne hch]; simp)]
  refine run_loop_inv chosen cc target o
    (fun st => st.occupied_squares < target ∨
      ∃ pre rec, st.placed_polys = pre ++ [rec] ∧
        st.occupied_squares < target + rec.1.cells.length)
    ?_ max_total_attempts (run_start boardSize cc o) (Or.inl h0)
  · intro st _ hocc _
    rcases attempt_step_spec chosen cc o st hch with ⟨nc, p, hmem, hp, htotal, hmap, hinn, hbr⟩
    rcases hbr with ⟨hb, ho, hpl, hpc⟩ | ⟨gx, gy, hcp, hb, ho, hpl, hpc⟩
    · left
      rw [ho]
      exact hocc
    · by_cases h2 : st.occupied_squares + p.cells.length < target
      · left
        rw [ho]
        exact h2
      · right
        refine ⟨st.placed_polys, (p, gx, gy), hpl, ?_⟩
        rw [ho]
        show st.occupied_squares + p.cells.length < target + p.cells.length
        omega

/-- C3: whenever the run ends at or above a positive target, the final
occupied count exceeds the target by strictly less than the cell count of the
last shape placed; with a nonempty shape set the loop only ends below the
target when the outer attempt budget (8000) is exhausted; and in the 10 by 10
scenario with density 1/5 (target `ceil(100 * 1/5) = 20`) and the single
3-cell shape, a `target-reached` outcome has a final occupied count in
{20, 21, 22}. -/
theorem engine_overshoot :
    (∀ (boardSize : Int) (chosen : List (String × List Cell)) (cc : ColorChoice)
       (target : Nat) (o : Oracle), 0 < target →
      target ≤ (run_placement boardSize chosen cc target o).occupied_squares →
      ∃ pre rec,
        (run_placement boardSize chosen cc target o).placed_polys = pre ++ [rec] ∧
        (run_placement boardSize chosen cc target o).occupied_squares <
          target + rec.1.cells.length) ∧
    (∀ (boardSize : Int) (chosen : List (String × List Cell)) (cc : ColorChoice)
       (target : Nat) (o : Oracle), chosen ≠ [] →
      (run_placement boardSize chosen cc target o).total_attempts < max_total_attempts →
      target ≤ (run_placement boardSize chosen cc target o).occupied_squares) ∧
    (∀ (cc : ColorChoice) (o : Oracle),
      outcome_of (run_placement 10 chosen_tri cc 20 o) 20 = Outcome.target_reached →
      ((run_placement 10 chosen_tri cc 20 o).occupied_squares = 20 ∨
       (run_placement 10 chosen_tri cc 20 o).occupied_squares = 21 ∨
       (run_placement 10 chosen_tri cc 20 o).occupied_squares = 22)) ∧
    compute_target 10 10 (1 / 5) = 20 := by
  refine ⟨?_, ?_, ?_, by norm_num [compute_target]⟩
  · intro boardSize chosen cc target o h0 hge
    by_cases hch : chosen = []
    · subst hch
      have he : run_placement boardSize [] cc target o = init_state boardSize := by
        simp [run_placement]
      rw [he] at hge
      exact absurd hge (by show ¬ (target ≤ 0); omega)
    · rcases run_placement_below_or_overshoot boardSize chosen cc target o hch h0 with
        hlt | hres
      · omega
      · exact hres
  · intro boardSize chosen cc target o hch hlt
    by_contra hno
    push_neg at hno
    have hfe : run_placement boardSize chosen cc target o =
        run_loop chosen cc target o max_total_attempts (run_start boardSize cc o) := by
      unfold run_placement
      rw [if_neg (by rw [isEmpty_false_of_ne hch]; simp)]
    rw [hfe] at hno hlt
    have hm := run_loop_min chosen cc target o max_total_attempts
      (run_start boardSize cc o) hno
    have hz : (run_start boardSize cc o).total_attempts = 0 := rfl
    rw [hz, Nat.zero_add, Nat.min_self] at hm
    omega
  · intro cc o hout
    have hch : chosen_tri ≠ [] := by simp [chosen_tri]
    have h20 : 20 ≤ (run_placement 10 chosen_tri cc 20 o).occupied_squares := by
      by_contra hno
      unfold outcome_of at hout
      rw [if_neg hno] at hout
      cases hout
    have hlen3 : ∀ r ∈ (run_placement 10 chosen_tri cc 20 o).placed_polys,
        r.1.cells.length = 3 := by
      unfold run_placement
      rw [if_neg (by rw [isEmpty_false_of_ne hch]; simp)]
      apply run_loop_inv chosen_tri cc 20 o
        (fun st => ∀ r ∈ st.placed_polys, r.1.cells.length = 3)
      · intro st hP _ _
        rcases attempt_step_spec chosen_tri cc o st hch with
          ⟨nc, p, hmem, hp, htotal, hmap, hinn, hbr⟩
        rcases hbr with ⟨hb, ho, hpl, hpc⟩ | ⟨gx, gy, hcp, hb, ho, hpl, hpc⟩
        · intro r hr
          rw [hpl] at hr
          exact hP r hr
        · intro r hr
          rw [hpl] at hr
          rcases List.mem_append.mp hr with hro | hrn
          · exact hP r hro
          · have hre : r = (p, gx, gy) := List.mem_singleton.mp hrn
            have hnc : nc = ("tri-I", [(0, 0), (1, 0), (2, 0)]) :=
              List.mem_singleton.mp hmem
            rw [hre]
            show p.cells.length = 3
            rw [hp, random_orientation_cells_length, make_cells_length, hnc]
            rfl
      · intro r hr
        exact absurd hr (List.not_mem_nil r)
    rcases run_placement_below_or_overshoot 10 chosen_tri cc 20 o hch (by omega) with
      hlt | ⟨pre, rec, hpp, hov⟩
    · omega
    · have hrec : rec ∈ (run_placement 10 chosen_tri cc 20 o).placed_polys := by
        rw [hpp]
        exact List.mem_append_right pre (List.mem_singleton.mpr rfl)
      have h3 := hlen3 rec hrec
      rw [h3] at hov
      omega

/-- C3 witness: the row-tiling oracle reaches the target with 21 occupied
cells on the 10 by 10 scenario. -/
theorem engine_overshoot_witness :
    (∃ pre rec,
      (run_placement 10 chosen_tri ColorChoice.random 20 scenario_oracle).placed_polys =
        pre ++ [rec] ∧
      (run_placement 10 chosen_tri ColorChoice.random 20 scenario_oracle).occupied_squares <
        20 + rec.1.cells.length) ∧
    (20 : Nat) ≤
      (run_placement 10 chosen_tri ColorChoice.random 20 scenario_oracle).occupied_squares ∧
    ((run_placement 10 chosen_tri ColorChoice.random 20 scenario_oracle).occupied_squares = 20 ∨
     (run_placement 10 chosen_tri ColorChoice.random 20 scenario_oracle).occupied_squares = 21 ∨
     (run_placement 10 chosen_tri ColorChoice.random 20 scenario_oracle).occupied_squares = 22) :=
  ⟨engine_overshoot.1 10 chosen_tri ColorChoice.random 20 scenario_oracle (by decide)
      (by decide),
   engine_overshoot.2.1 10 chosen_tri ColorChoice.random 20 scenario_oracle (by decide)
      (by decide),
   engine_overshoot.2.2.1 ColorChoice.random scenario_oracle (by decide)⟩

/-- Helper for C5: bounds of occupied keys are preserved by any operation
sequence, because `place_poly` itself guards every write with the bounds
check. -/
theorem apply_ops_bound :
    ∀ (ops : List BoardOp) (b : Board),
      (∀ k : Cell, (dictLookup k b.grid).isSome = true → in_bounds b k.1 k.2) →
      ∀ k : Cell, (dictLookup k (apply_ops b ops).grid).isSome = true →
        in_bounds b k.1 k.2 := by
  intro ops
  induction ops with
  | nil => intro b hb k hk; exact hb k hk
  | cons op rest ih =>
    intro b hb k hk
    cases op with
    | place p gx gy =>
      have hb2 : ∀ k2 : Cell, (dictLookup k2 (b.place_poly p gx gy).grid).isSome = true →
          in_bounds (b.place_poly p gx gy) k2.1 k2.2 := by
        intro k2 hk2
        rcases place_poly_isSome_bound b p gx gy k2 hk2 with h2 | h2
        · exact hb k2 h2
        · exact h2
      exact ih (b.place_poly p gx gy) hb2 k hk
    | clear =>
      have hb2 : ∀ k2 : Cell, (dictLookup k2 b.clear.grid).isSome = true →
          in_bounds b.clear k2.1 k2.2 := by
        intro k2 hk2
        simp [Board.clear, dictLookup] at hk2
      exact ih b.clear hb2 k hk

/-- C5: board occupancy invariants.  (a) After any sequence of `place_poly`
and `clear` operations on a fresh board — including unchecked `place_poly`
calls — every occupied key lies within `[0, cols) x [0, rows)`.  (b) Within
one engine run the absolute cell lists of distinct placement records are
pairwise disjoint: no coordinate is written by two different placements. -/
theorem board_invariants :
    (∀ (cols rows cs : Int) (org : Int × Int) (ops : List BoardOp) (k : Cell),
      (dictLookup k
        (apply_ops
          { cols := cols, rows := rows, cellSize := cs, origin := org, grid := [] }
          ops).grid).isSome = true →
      0 ≤ k.1 ∧ k.1 < cols ∧ 0 ≤ k.2 ∧ k.2 < rows) ∧
    (∀ (boardSize : Int) (chosen : List (String × List Cell)) (cc : ColorChoice)
       (target : Nat) (o : Oracle),
      ((run_placement boardSize chosen cc target o).placed_polys).Pairwise
        (fun r1 r2 => ∀ c1 ∈ abs_cells r1, ∀ c2 ∈ abs_cells r2, c1 ≠ c2)) := by
  constructor
  · intro cols rows cs org ops k hk
    exact apply_ops_bound ops
      { cols := cols, rows := rows, cellSize := cs, origin := org, grid := [] }
      (fun k2 hk2 => by simp [dictLookup] at hk2) k hk
  · intro boardSize chosen cc target o
    by_cases hch : chosen = []
    · subst hch
      have he : run_placement boardSize [] cc target o = init_state boardSize := by
        simp [run_placement]
      rw [he]
      exact List.Pairwise.nil
    · unfold run_placement
      rw [if_neg (by rw [isEmpty_false_of_ne hch]; simp)]
      have hfin := run_loop_inv chosen cc target o
        (fun st =>
          (∀ r ∈ st.placed_polys, ∀ c ∈ abs_cells r,
            (dictLookup c st.board.grid).isSome = true) ∧
          st.placed_polys.Pairwise
            (fun r1 r2 => ∀ c1 ∈ abs_cells r1, ∀ c2 ∈ abs_cells r2, c1 ≠ c2))
        (by
          intro st hP _ _
          rcases attempt_step_spec chosen cc o st hch with
            ⟨nc, p, hmem, hp, htot2, hmap, hinn, hbr⟩
          rcases hbr with ⟨hb, ho, hpl, hpc⟩ | ⟨gx, gy, hcp, hb, ho, hpl, hpc⟩
          · constructor
            · intro r hr c hc
              rw [hpl] at hr
              rw [hb]
              exact hP.1 r hr c hc
            · rw [hpl]
              exact hP.2
          · have hcps := (can_place_spec st.board p gx gy).mp hcp
            constructor
            · intro r hr c hc
              rw [hpl] at hr
              rw [hb]
              rcases List.mem_append.mp hr with hro | hrn
              · exact place_poly_isSome_mono st.board p gx gy c (hP.1 r hro c hc)
              · have hre : r = (p, gx, gy) := List.mem_singleton.mp hrn
                subst hre
                simp only [abs_cells] at hc
                rcases List.mem_map.mp hc with ⟨c0, hc0, hce⟩
                rw [← hce]
                exact place_poly_isSome_mem st.board p gx gy c0 hc0 (hcps c0 hc0).1
            · rw [hpl]
              apply List.pairwise_append.mpr
              refine ⟨hP.2, by simp, ?_⟩
              intro r1 hr1 r2 hr2 c1 hc1 c2 hc2 hee
              have hre : r2 = (p, gx, gy) := List.mem_singleton.mp hr2
              subst hre
              simp only [abs_cells] at hc2
              rcases List.mem_map.mp hc2 with ⟨c0, hc0, hce⟩
              have hocc1 := hP.1 r1 hr1 c1 hc1
              rw [hee, ← hce] at hocc1
              rw [(hcps c0 hc0).2] at hocc1
              cases hocc1)
        max_total_attempts (run_start boardSize cc o)
        ⟨fun r hr => absurd hr (List.not_mem_nil r), List.Pairwise.nil⟩
      exact hfin.2

/-- C5 witness: after out-of-bounds, overwriting and clearing operations, the
surviving occupied key (3, 4) is in bounds. -/
theorem board_invariants_witness :
    0 ≤ ((3 : Int), (4 : Int)).1 ∧ ((3 : Int), (4 : Int)).1 < 5 ∧
    0 ≤ ((3 : Int), (4 : Int)).2 ∧ ((3 : Int), (4 : Int)).2 < 5 :=
  board_invariants.1 5 5 36 (32, 32) ops_w (3, 4) (by decide)

/-- Helper for C6: the unique policy reuses a stored color. -/
theorem pick_color_unique_found (o : Oracle) (t : Nat) (name : String) (st : RunState)
    (c : Color) (hcl : dictLookup name st.unique_color_map = some c) :
    pick_color_step ColorChoice.unique o t name st = (c, st.unique_color_map, st.color_pool) := by
  simp [pick_color_step, hcl]

/-- Helper for C6: a fresh name is stored with the freshly popped color. -/
theorem pick_color_unique_fresh (o : Oracle) (t : Nat) (name : String) (st : RunState)
    (hcl : dictLookup name st.unique_color_map = none) :
    (pick_color_step ColorChoice.unique o t name st).2.1 =
      dictInsert name (pick_color_step ColorChoice.unique o t name st).1
        st.unique_color_map := by
  simp [pick_color_step, hcl]

/-- C6: under the unique color policy, any two placement records bearing the
same shape name within one run carry the identical color: the first draw of a
name stores the color popped from the shuffled palette pool, and every later
placement of that name reuses the stored color. -/
theorem unique_color_consistent (boardSize : Int) (chosen : List (String × List Cell))
    (target : Nat) (o : Oracle) (r1 r2 : Polyomino × Int × Int)
    (h1 : r1 ∈ (run_placement boardSize chosen ColorChoice.unique target o).placed_polys)
    (h2 : r2 ∈ (run_placement boardSize chosen ColorChoice.unique target o).placed_polys)
    (hn : r1.1.name = r2.1.name) :
    r1.1.color = r2.1.color := by
  by_cases hch : chosen = []
  · subst hch
    have he : run_placement boardSize [] ColorChoice.unique target o =
        init_state boardSize := by
      simp [run_placement]
    rw [he] at h1
    exact absurd h1 (List.not_mem_nil r1)
  · have hP : ∀ r ∈ (run_placement boardSize chosen ColorChoice.unique target o).placed_polys,
        dictLookup r.1.name
          (run_placement boardSize chosen ColorChoice.unique target o).unique_color_map =
          some r.1.color := by
      unfold run_placement
      rw [if_neg (by rw [isEmpty_false_of_ne hch]; simp)]
      refine run_loop_inv chosen ColorChoice.unique target o
        (fun st => ∀ r ∈ st.placed_polys,
          dictLookup r.1.name st.unique_color_map = some r.1.color)
        ?_ max_total_attempts (run_start boardSize ColorChoice.unique o)
        (fun r hr => absurd hr (List.not_mem_nil r))
      intro st hPst _ _
      rcases attempt_step_spec chosen ColorChoice.unique o st hch with
        ⟨nc, p, hmem, hp, htot2, hmap, hinn, hbr⟩
      have hpname : p.name = nc.1 := by rw [hp]; rfl
      have hpcolor : p.color =
          (pick_color_step ColorChoice.unique o st.total_attempts nc.1 st).1 := by
        rw [hp]; rfl
      have hcommon :
          (∀ r ∈ st.placed_polys,
            dictLookup r.1.name
              (pick_color_step ColorChoice.unique o st.total_attempts nc.1 st).2.1 =
              some r.1.color) ∧
          dictLookup nc.1
            (pick_color_step ColorChoice.unique o st.total_attempts nc.1 st).2.1 =
            some (pick_color_step ColorChoice.unique o st.total_attempts nc.1 st).1 := by
        rcases hcl : dictLookup nc.1 st.unique_color_map with _ | c
        · rw [pick_color_unique_fresh o st.total_attempts nc.1 st hcl]
          constructor
          · intro r hr
            have hrn : r.1.name ≠ nc.1 := by
              intro he
              have := hPst r hr
              rw [he, hcl] at this
              cases this
            rw [dictLookup_insert_ne nc.1 r.1.name _ hrn]
            exact hPst r hr
          · exact dictLookup_insert_self _ _ _
        · rw [pick_color_unique_found o st.total_attempts nc.1 st c hcl]
          exact ⟨fun r hr => hPst r hr, hcl⟩
      rcases hbr with ⟨hb, ho, hpl, hpc⟩ | ⟨gx, gy, hcp, hb, ho, hpl, hpc⟩
      · intro r hr
        rw [hpl] at hr
        rw [hmap]
        exact hcommon.1 r hr
      · intro r hr
        rw [hpl] at hr
        rw [hmap]
        rcases List.mem_append.mp hr with hro | hrn
        · exact hcommon.1 r hro
        · have hre : r = (p, gx, gy) := List.mem_singleton.mp hrn
          subst hre
          show dictLookup p.name _ = some p.color
          rw [hpname, hpcolor]
          exact hcommon.2
    have e1 := hP r1 h1
    have e2 := hP r2 h2
    rw [hn] at e1
    exact Option.some.inj (e1.symm.trans e2)

/-- C6 witness: two placements of the shape "tri-I" in a unique-color run
carry the same color. -/
theorem unique_color_consistent_witness :
    ((run_placement 10 chosen_tri ColorChoice.unique 6 scenario_oracle).placed_polys.getD
        0 default_rec).1.color =
    ((run_placement 10 chosen_tri ColorChoice.unique 6 scenario_oracle).placed_polys.getD
        1 default_rec).1.color :=
  unique_color_consistent 10 chosen_tri 6 scenario_oracle _ _ (by decide) (by decide)
    (by decide)

/-- C2 witness: the correspondence evaluated at a concrete board and piece. -/
theorem can_place_correct_witness :
    board_w.can_place poly_w 0 0 = true ↔
      ∀ c ∈ poly_w.cells,
        (0 ≤ (0 : Int) + c.1 ∧ (0 : Int) + c.1 < board_w.cols ∧
          0 ≤ (0 : Int) + c.2 ∧ (0 : Int) + c.2 < board_w.rows) ∧
          dictLookup ((0 : Int) + c.1, (0 : Int) + c.2) board_w.grid = none :=
  can_place_correct board_w poly_w 0 0

/-- C8 witness: the identity evaluated at a concrete cell list. -/
theorem rotate90_fourth_power_witness :
    rotate90 (rotate90 (rotate90 (rotate90 [((0 : Int), (1 : Int)), (1, 1), (1, 0), (5, 5)]))) =
      normalize [((0 : Int), (1 : Int)), (1, 1), (1, 0), (5, 5)] :=
  rotate90_fourth_power [((0 : Int), (1 : Int)), (1, 1), (1, 0), (5, 5)]

/-- C4 witness: the budget bounds evaluated on a concrete run. -/
theorem engine_attempts_bounded_witness :
    (run_placement 10 chosen_tri ColorChoice.random 20 scenario_oracle).total_attempts ≤
      max_total_attempts ∧
    (run_placement 10 chosen_tri ColorChoice.random 20 scenario_oracle).inner_trials ≤
      (run_placement 10 chosen_tri ColorChoice.random 20 scenario_oracle).total_attempts *
        inner_attempts ∧
    (run_placement 10 chosen_tri ColorChoice.random 20 scenario_oracle).inner_trials ≤
      max_total_attempts * inner_attempts ∧
    (∀ st : RunState,
      (attempt_step chosen_tri ColorChoice.random scenario_oracle st).inner_trials ≤
        st.inner_trials + inner_attempts) ∧
    max_total_attempts = 8000 ∧ inner_attempts = 200 :=
  engine_attempts_bounded 10 chosen_tri ColorChoice.random 20 scenario_oracle

end PolyDraw
